import Mathlib

/-!
Verification of the `ink` markdown terminal renderer
(`internal/render/render.go`, `internal/render/styles.go`).

Text is modelled as `List Char` (one `Char` per byte of the Go
`[]byte` / `string` values; all bytes the algorithms inspect are
ASCII or opaque). External library behaviour (goldmark parsing,
lipgloss style application and visual width) is kept abstract: the
renderer is parameterised over a `Styles` record of style functions
and a visual-width measure, exactly mirroring the call sites in the
Go source.
-/

/-- Byte strings of the Go source, one `Char` per byte. -/
abbrev Str := List Char

namespace Ink

/-- `bytes.ReplaceAll(source, "\r\n", "\n")`: left-to-right,
non-overlapping replacement of CRLF by LF. -/
def normalizeCRLF : Str → Str
  | [] => []
  | [c] => [c]
  | c :: d :: rest =>
      if c = '\r' ∧ d = '\n' then '\n' :: normalizeCRLF rest
      else c :: normalizeCRLF (d :: rest)

/-- `bytes.Index(hay, pat)`: index of the first occurrence of `pat`
in `hay`, `none` when absent (Go returns `-1`). -/
def indexOf? (pat : Str) : Str → Option Nat
  | [] => if pat = [] then some 0 else none
  | c :: rest =>
      if pat.isPrefixOf (c :: rest) then some 0
      else (indexOf? pat rest).map (· + 1)

/-- The front-matter delimiter `---`. -/
def fmDelim : Str := ['-', '-', '-']

/-- The closing-delimiter pattern `"\n---"`. -/
def fmClose : Str := '\n' :: fmDelim

/-- `stripFrontMatter` from `render.go`: removes YAML front matter
(`---` delimited) from the start of the source. `normalizeCRLF source`
plays the role of the Go local `normalized`. -/
def stripFrontMatter (source : Str) : Str :=
  if ¬ fmDelim.isPrefixOf source then source
  else
    match indexOf? fmClose ((normalizeCRLF source).drop 3) with
    | none => source
    | some e => ((normalizeCRLF source).drop (3 + e + 4)).dropWhile (· = '\n')

/-- Go slice expression `l[i:]`: panics (here `none`) when
`i > len(l)`. -/
def goSliceFrom (l : Str) (i : Nat) : Option Str :=
  if i ≤ l.length then some (l.drop i) else none

/-- `stripFrontMatter` with every Go slice expression bounds-checked:
`normalized[3:]` and `normalized[3+end+4:]` return `none` when out of
range, as the Go originals would panic. -/
def stripFrontMatterChk (source : Str) : Option Str :=
  if ¬ fmDelim.isPrefixOf source then some source
  else
    match goSliceFrom (normalizeCRLF source) 3 with
    | none => none
    | some tail3 =>
      match indexOf? fmClose tail3 with
      | none => some source
      | some e =>
        match goSliceFrom (normalizeCRLF source) (3 + e + 4) with
        | none => none
        | some rest => some (rest.dropWhile (· = '\n'))

theorem normalizeCRLF_cons_of_ne (c : Char) (s : Str) (hc : c ≠ '\r') :
    normalizeCRLF (c :: s) = c :: normalizeCRLF s := by
  cases s with
  | nil => simp [normalizeCRLF]
  | cons d rest => simp [normalizeCRLF, hc]

theorem indexOf?_isPrefixOf (pat s : Str) (e : Nat)
    (h : indexOf? pat s = some e) : pat.isPrefixOf (s.drop e) := by
  induction s generalizing e with
  | nil =>
      unfold indexOf? at h
      split at h
      · next hp => cases h; simp [hp]
      · cases h
  | cons c rest ih =>
      unfold indexOf? at h
      split at h
      · next hp => cases h; simp only [List.drop_zero]; exact hp
      · next hp =>
          cases he : indexOf? pat rest with
          | none => rw [he] at h; cases h
          | some e' =>
              rw [he] at h
              simp at h
              subst h
              simpa using ih e' he

theorem isPrefixOf_length_le (pat s : Str) (h : pat.isPrefixOf s) :
    pat.length ≤ s.length := by
  exact (List.IsPrefix.length_le (List.isPrefixOf_iff_prefix.mp h))

theorem indexOf?_eq_some_of_first (pat s : Str) (i : Nat)
    (hat : pat.isPrefixOf (s.drop i))
    (hmin : ∀ j, j < i → ¬ pat.isPrefixOf (s.drop j)) :
    indexOf? pat s = some i := by
  induction s generalizing i with
  | nil =>
      have hp0 : pat.isPrefixOf ([] : Str) := by simpa using hat
      have hi0 : i = 0 := by
        by_contra hne
        exact hmin 0 (Nat.pos_of_ne_zero hne) (by simpa using hp0)
      have : pat = [] := by
        simpa using List.isPrefixOf_iff_prefix.mp hp0
      subst hi0
      simp [indexOf?, this]
  | cons c rest ih =>
      cases i with
      | zero =>
          unfold indexOf?
          simp only [List.drop_zero] at hat
          simp [hat]
      | succ i' =>
          have hnot : ¬ pat.isPrefixOf (c :: rest) := by
            have := hmin 0 (Nat.succ_pos i')
            simpa using this
          have hat' : pat.isPrefixOf (rest.drop i') := by simpa using hat
          have hmin' : ∀ j, j < i' → ¬ pat.isPrefixOf (rest.drop j) := by
            intro j hj
            have := hmin (j + 1) (by omega)
            simpa using this
          unfold indexOf?
          simp [hnot, ih i' hat' hmin']

/-- A `"\n---"` occurrence cannot start inside `pre` in
`pre ++ "\n---" ++ post` when `pre` itself contains none: an occurrence
crossing the junction would need a `'-'` where the appended pattern
has its `'\n'`. -/
theorem fmClose_no_junction (pre post : Str) (i : Nat)
    (hi : i < pre.length)
    (hNoPre : ∀ j, j < pre.length → ¬ fmClose.isPrefixOf (pre.drop j)) :
    ¬ fmClose.isPrefixOf ((pre ++ (fmClose ++ post)).drop i) := by
  intro h
  have hpfx := List.isPrefixOf_iff_prefix.mp h
  by_cases hfit : i + 4 ≤ pre.length
  · -- the occurrence would lie wholly inside pre
    have htake := List.prefix_iff_eq_take.mp hpfx
    have hdrop : (pre ++ (fmClose ++ post)).drop i = pre.drop i ++ (fmClose ++ post) := by
      rw [List.drop_append_of_le_length (by omega)]
    have hlen : 4 ≤ (pre.drop i).length := by
      simp only [List.length_drop]; omega
    have h4 : fmClose.length = 4 := by simp [fmClose, fmDelim]
    have htake' : fmClose = (pre.drop i).take 4 := by
      rw [htake, hdrop, h4, List.take_append_of_le_length hlen]
    have : fmClose.isPrefixOf (pre.drop i) := by
      refine List.isPrefixOf_iff_prefix.mpr ?_
      rw [List.prefix_iff_eq_take]
      simpa [fmClose, fmDelim] using htake'
    exact hNoPre i hi this
  · -- the occurrence would cross the junction
    obtain ⟨t, ht⟩ := hpfx
    have hget : ∀ k, k < 4 →
        (pre ++ (fmClose ++ post))[i + k]? = fmClose[k]? := by
      intro k hk
      have : (pre ++ (fmClose ++ post))[i + k]? =
          ((pre ++ (fmClose ++ post)).drop i)[k]? := by
        rw [List.getElem?_drop]
      rw [this, ← ht, List.getElem?_append_left]
      simp [fmClose, fmDelim]
      omega
    have hnl : (pre ++ (fmClose ++ post))[pre.length]? = some '\n' := by
      rw [List.getElem?_append_right (Nat.le_refl _)]
      simp [fmClose, fmDelim]
    have hcases : pre.length = i + 1 ∨ pre.length = i + 2 ∨ pre.length = i + 3 := by
      omega
    rcases hcases with hc | hc | hc
    · have := hget 1 (by omega)
      rw [← hc] at this
      rw [hnl] at this
      simp [fmClose, fmDelim] at this
    · have := hget 2 (by omega)
      rw [← hc] at this
      rw [hnl] at this
      simp [fmClose, fmDelim] at this
    · have := hget 3 (by omega)
      rw [← hc] at this
      rw [hnl] at this
      simp [fmClose, fmDelim] at this

theorem normalizeCRLF_fmPrefix (source : Str) (hp : fmDelim.isPrefixOf source) :
    ∃ t, normalizeCRLF source = '-' :: '-' :: '-' :: t := by
  obtain ⟨r, hr⟩ := List.isPrefixOf_iff_prefix.mp hp
  refine ⟨normalizeCRLF r, ?_⟩
  rw [← hr]
  show normalizeCRLF ('-' :: '-' :: '-' :: r) = _
  rw [normalizeCRLF_cons_of_ne _ _ (by decide),
      normalizeCRLF_cons_of_ne _ _ (by decide),
      normalizeCRLF_cons_of_ne _ _ (by decide)]

/-- Neither of the two Go slice expressions in `stripFrontMatter` can
go out of bounds: the checked variant always succeeds and agrees with
the unchecked embedding. -/
theorem stripFrontMatterChk_eq (source : Str) :
    stripFrontMatterChk source = some (stripFrontMatter source) := by
  unfold stripFrontMatterChk stripFrontMatter
  by_cases hp : fmDelim.isPrefixOf source
  · obtain ⟨t, ht⟩ := normalizeCRLF_fmPrefix source hp
    have h3 : goSliceFrom (normalizeCRLF source) 3 =
        some ((normalizeCRLF source).drop 3) := by
      unfold goSliceFrom
      rw [if_pos]
      rw [ht]
      simp
    simp only [hp, not_true_eq_false, if_false, h3]
    cases he : indexOf? fmClose ((normalizeCRLF source).drop 3) with
    | none => rfl
    | some e =>
        have hb := indexOf?_isPrefixOf _ _ _ he
        have hlen := isPrefixOf_length_le _ _ hb
        have hle : 3 + e + 4 ≤ (normalizeCRLF source).length := by
          simp only [fmClose, fmDelim, List.length_drop, List.length_cons] at hlen
          have h3le : 3 ≤ (normalizeCRLF source).length := by
            rw [ht]; simp
          omega
        have h2 : goSliceFrom (normalizeCRLF source) (3 + e + 4) =
            some ((normalizeCRLF source).drop (3 + e + 4)) := by
          unfold goSliceFrom
          rw [if_pos hle]
        show (match goSliceFrom (normalizeCRLF source) (3 + e + 4) with
          | none => none
          | some rest => some (rest.dropWhile (· = '\n'))) =
          some (((normalizeCRLF source).drop (3 + e + 4)).dropWhile (· = '\n'))
        rw [h2]
  · simp [hp]

theorem strip_eq_self_of_not_delim (r : Str) (h : ¬ fmDelim.isPrefixOf r) :
    stripFrontMatter r = r := by
  unfold stripFrontMatter
  simp [h]

theorem strip_eq_self_of_no_close (r : Str)
    (h1 : fmDelim.isPrefixOf r)
    (h2 : indexOf? fmClose ((normalizeCRLF r).drop 3) = none) :
    stripFrontMatter r = r := by
  unfold stripFrontMatter
  simp [h1, h2]

theorem drop_length_add (a b : Str) (n : Nat) :
    (a ++ b).drop (a.length + n) = b.drop n := by
  rw [← List.drop_drop]
  simp

/-! ### The document tree (`goldmark` AST as consumed by `renderNode`) -/

/-- `east.Alignment` of GFM table columns. -/
inductive Alignment where
  | align_none
  | align_left
  | align_right
  | align_center
deriving DecidableEq, Repr

/-- Inline AST nodes, as dispatched by `renderInline`. -/
inductive Inline where
  | text (s : Str) (soft hard : Bool)
  | str (s : Str)
  | codeSpan (cs : List Inline)
  | emphasis (level : Nat) (cs : List Inline)
  | link (cs : List Inline) (dest : Str)
  | autoLink (url : Str)
  | image (cs : List Inline)
  | rawHTML (segs : List Str)
  | strikethrough (cs : List Inline)
  | taskCheckBox (checked : Bool)
  | unknownInline (cs : List Inline)
deriving Repr

/-- Block AST nodes, as dispatched by `renderNode`. A table row is a
header flag (`*east.TableHeader` vs `*east.TableRow`) with its cells'
inline children. `codeBlock` carries the concatenation of its raw
source lines. -/
inductive Node where
  | document (cs : List Node)
  | heading (level : Nat) (inl : List Inline)
  | paragraph (inl : List Inline)
  | codeBlock (raw : Str)
  | blockquote (cs : List Node)
  | list (ordered : Bool) (start : Int) (cs : List Node)
  | listItem (cs : List Node)
  | table (aligns : List Alignment) (rows : List (Bool × List (List Inline)))
  | thematicBreak
  | textBlock (inl : List Inline)
  | unknown (cs : List Node)
deriving Repr

/-- The style registry and the two lipgloss measures the renderer
calls. lipgloss is an external dependency; each field stands for the
`Render` method of the corresponding style value in `styles.go` (the
`Int` argument is the `.Width(maxWidth)` constraint) and `vw` for
`lipgloss.Width`, the escape-code-insensitive visual width. -/
structure Styles where
  h1Badge : Str → Str
  widthStyle : Int → Str → Str
  h2 : Int → Str → Str
  h3 : Int → Str → Str
  h4 : Int → Str → Str
  paragraph : Int → Str → Str
  codeBlock : Int → Str → Str
  blockquote : Int → Str → Str
  thematicBreak : Int → Str → Str
  inlineCode : Str → Str
  strong : Str → Str
  emphasis : Str → Str
  link : Str → Str
  strikethrough : Str → Str
  tableHeader : Str → Str
  tableCell : Str → Str
  tableBorder : Str → Str
  vw : Str → Nat

/-- `strings.TrimRight(s, "\n")`. -/
def trimRightNewlines (s : Str) : Str :=
  (s.reverse.dropWhile (· = '\n')).reverse

/-- `strings.Repeat("  ", depth)`. -/
def indentOf (depth : Nat) : Str :=
  (List.replicate depth ([' ', ' '])).flatten

/-- Decimal digit character (`'0' + n` for `n < 10`). -/
def digitChar (n : Nat) : Char := Char.ofNat (48 + n)

/-- Decimal digits of a natural number, most significant first,
accumulator style. -/
def natDecimalAux (n : Nat) (acc : Str) : Str :=
  if n < 10 then digitChar n :: acc
  else natDecimalAux (n / 10) (digitChar (n % 10) :: acc)
termination_by n
decreasing_by
  have : 10 ≤ n := by omega
  exact Nat.div_lt_self (by omega) (by omega)

def natDecimal (n : Nat) : Str := natDecimalAux n []

/-- `fmt.Sprintf("%d", i)`: Go's decimal rendering of an `int`. -/
def intDecimal : Int → Str
  | .ofNat n => natDecimal n
  | .negSucc n => '-' :: natDecimal (n + 1)

/-- Parent context of a node during the walk: when the node is a
direct child of a `List`, the list's `IsOrdered()`, its `Start`, and
the number of siblings that precede the node (what the Go code reads
back through `n.Parent()` and the sibling walk). `none` when the
parent is not a `List`. -/
abbrev PCtx := Option (Bool × Int × Nat)

/-- The `marker` computation of the `ListItem` case: `"• "` unless the
parent is an ordered list, in which case `fmt.Sprintf("%d. ", idx)`
with `idx = parent.Start + number of preceding siblings`. -/
def markerOf (pctx : PCtx) : Str :=
  match pctx with
  | some (true, start, k) => intDecimal (start + (k : Int)) ++ ['.', ' ']
  | _ => ['•', ' ']

/-! ### Inline renderer -/

mutual

/-- `renderInline` from `render.go`. -/
def renderInline (st : Styles) : Inline → Str
  | .text s soft hard =>
      s ++ (if soft then [' '] else []) ++ (if hard then ['\n'] else [])
  | .str s => s
  | .codeSpan cs => st.inlineCode (collectCodeText cs)
  | .emphasis level cs =>
      if level = 2 then st.strong (renderInlines st cs)
      else st.emphasis (renderInlines st cs)
  | .link cs dest =>
      st.link (renderInlines st cs ++ [' ', '('] ++ dest ++ [')'])
  | .autoLink url => st.link url
  | .image cs =>
      ("[image: ").toList ++ renderInlines st cs ++ [']']
  | .rawHTML segs => segs.flatten
  | .strikethrough cs => st.strikethrough (renderInlines st cs)
  | .taskCheckBox checked =>
      if checked then ['☑', ' '] else ['☐', ' ']
  | .unknownInline cs => renderInlines st cs

/-- `renderInlineChildren`: the inline renders of a node's children,
concatenated. -/
def renderInlines (st : Styles) : List Inline → Str
  | [] => []
  | i :: rest => renderInline st i ++ renderInlines st rest

/-- The `CodeSpan` loop: only direct `*ast.Text` children contribute,
with their raw segments. -/
def collectCodeText : List Inline → Str
  | [] => []
  | .text s _ _ :: rest => s ++ collectCodeText rest
  | _ :: rest => collectCodeText rest

end

/-! ### Table layout -/

/-- The `alignCell` closure in `renderTable`: pads `s` to `width`
according to `a`; a non-positive gap returns `s` unchanged. -/
def alignCell (vw : Str → Nat) (s : Str) (width : Int) (a : Alignment) : Str :=
  let gap : Int := width - (vw s : Int)
  if gap ≤ 0 then s
  else
    match a with
    | .align_center =>
        List.replicate (gap / 2).toNat ' ' ++ s ++
          List.replicate (gap - gap / 2).toNat ' '
    | .align_right => List.replicate gap.toNat ' ' ++ s
    | _ => s ++ List.replicate gap.toNat ' '

/-- The `numCols` loop: the maximum cell count over all rows. -/
def numColsOf (rows : List (Bool × List Str)) : Nat :=
  rows.foldl (fun acc r => max acc r.2.length) 0

/-- One row's pass of the `colWidths` loop: pointwise
`if w > colWidths[i] { colWidths[i] = w }`. The `([], _ :: _)` case is
where Go would index `colWidths` out of bounds. -/
def bumpRow (vw : Str → Nat) : List Int → List Str → List Int
  | a :: tl, c :: cs =>
      (if (vw c : Int) > a then (vw c : Int) else a) :: bumpRow vw tl cs
  | tl, [] => tl
  | [], _ :: _ => []

/-- The `colWidths` computation: start from `numCols` zeros and fold
every row through `bumpRow`. -/
def colWidthsOf (vw : Str → Nat) (rows : List (Bool × List Str))
    (numCols : Nat) : List Int :=
  rows.foldl (fun acc r => bumpRow vw acc r.2) (List.replicate numCols 0)

/-- The separator line under the header:
`"├" + Join(map (Repeat "─" (w+2)) colWidths, "┼") + "┤"`. -/
def separatorOf (colWidths : List Int) : Str :=
  '├' :: (List.intercalate ['┼']
    (colWidths.map (fun w => List.replicate (w + 2).toNat '─'))) ++ ['┤']

/-- One rendered table line (the inner `for j := 0; j < numCols` loop
of `renderTable`, including the leading border glyph). -/
def renderRow (st : Styles) (aligns : List Alignment) (colWidths : List Int)
    (numCols : Nat) (hdr : Bool) (cells : List Str) : Str :=
  st.tableBorder ['│'] ++
    ((List.range numCols).map (fun j =>
      let cell := cells.getD j []
      let a := aligns.getD j Alignment.align_none
      let padded := ' ' :: alignCell st.vw cell (colWidths.getD j 0) a ++ [' ']
      (if hdr then st.tableHeader padded else st.tableCell padded) ++
        st.tableBorder ['│'])).flatten

/-- `renderTable` from `render.go`, after the cells have been
inline-rendered. -/
def renderTable (st : Styles) (aligns : List Alignment)
    (rows : List (Bool × List (List Inline))) (_maxWidth : Int) : Str :=
  let rws : List (Bool × List Str) :=
    rows.map (fun r => (r.1, r.2.map (renderInlines st)))
  if rws.isEmpty then []
  else
    let numCols := numColsOf rws
    let colWidths := colWidthsOf st.vw rws numCols
    let separator := separatorOf colWidths
    (rws.map (fun r =>
      renderRow st aligns colWidths numCols r.1 r.2 ++ ['\n'] ++
        (if r.1 then st.tableBorder separator ++ ['\n'] else []))).flatten
    ++ ['\n']

/-! ### Block renderer -/

mutual

/-- `renderNode` from `render.go`. `pctx` carries what the Go code
reads back through `n.Parent()` in the `ListItem` case. -/
def renderNode (st : Styles) (pctx : PCtx) (n : Node) (depth : Nat)
    (maxWidth : Int) : Str :=
  match n with
  | .document cs => renderChildren st cs depth maxWidth
  | .heading level inl =>
      (match level with
        | 1 => st.widthStyle maxWidth (st.h1Badge (renderInlines st inl))
        | 2 => st.h2 maxWidth (renderInlines st inl)
        | 3 => st.h3 maxWidth (renderInlines st inl)
        | _ => st.h4 maxWidth (renderInlines st inl)) ++ ['\n', '\n']
  | .paragraph inl =>
      st.paragraph maxWidth (renderInlines st inl) ++ ['\n']
  | .codeBlock raw =>
      st.codeBlock maxWidth (trimRightNewlines raw) ++ ['\n', '\n']
  | .blockquote cs =>
      st.blockquote maxWidth
        (trimRightNewlines (renderChildren st cs (depth + 1) (maxWidth - 3)))
        ++ ['\n', '\n']
  | .list ordered start cs =>
      renderListKids st ordered start cs 0 depth maxWidth ++ ['\n']
  | .listItem cs =>
      indentOf depth ++ markerOf pctx ++
        trimRightNewlines (itemTextPart st cs depth maxWidth) ++ ['\n'] ++
        itemListPart st cs depth maxWidth
  | .table aligns rows => renderTable st aligns rows maxWidth
  | .thematicBreak =>
      st.thematicBreak maxWidth (List.replicate 40 '─') ++ ['\n', '\n']
  | .textBlock inl => renderInlines st inl
  | .unknown cs => renderChildren st cs depth maxWidth

/-- `renderChildren`: children of a non-`List` parent, in order. -/
def renderChildren (st : Styles) (cs : List Node) (depth : Nat)
    (maxWidth : Int) : Str :=
  match cs with
  | [] => []
  | c :: rest =>
      renderNode st none c depth maxWidth ++
        renderChildren st rest depth maxWidth

/-- The children walk of the `List` case: each child's parent is the
list, `k` preceding siblings. -/
def renderListKids (st : Styles) (ordered : Bool) (start : Int)
    (cs : List Node) (k : Nat) (depth : Nat) (maxWidth : Int) : Str :=
  match cs with
  | [] => []
  | c :: rest =>
      renderNode st (some (ordered, start, k)) c depth maxWidth ++
        renderListKids st ordered start rest (k + 1) depth maxWidth

/-- The `textBuf` of the `ListItem` case: renders of the item's
non-`List` children, in order, at `depth+1`. -/
def itemTextPart (st : Styles) (cs : List Node) (depth : Nat)
    (maxWidth : Int) : Str :=
  match cs with
  | [] => []
  | .list _ _ _ :: rest => itemTextPart st rest depth maxWidth
  | c :: rest =>
      renderNode st none c (depth + 1) maxWidth ++
        itemTextPart st rest depth maxWidth

/-- The `listBuf` of the `ListItem` case: renders of the item's `List`
children, in order, at `depth+1`. -/
def itemListPart (st : Styles) (cs : List Node) (depth : Nat)
    (maxWidth : Int) : Str :=
  match cs with
  | [] => []
  | .list ordered start kids :: rest =>
      renderNode st none (.list ordered start kids) (depth + 1) maxWidth ++
        itemListPart st rest depth maxWidth
  | _ :: rest => itemListPart st rest depth maxWidth

end

/-- `Render` from `render.go`: strip front matter, parse (external
goldmark, abstracted as `parse`), walk the tree, trim trailing
newlines. -/
def Render (st : Styles) (parse : Str → Node) (source : Str)
    (maxWidth : Int) : Str :=
  trimRightNewlines
    (renderNode st none (parse (stripFrontMatter source)) 0 maxWidth)

/-- A concrete style registry for evaluating the renderer on concrete
inputs: every style is the identity and visual width is the length. -/
def idStyles : Styles where
  h1Badge := fun s => s
  widthStyle := fun _ s => s
  h2 := fun _ s => s
  h3 := fun _ s => s
  h4 := fun _ s => s
  paragraph := fun _ s => s
  codeBlock := fun _ s => s
  blockquote := fun _ s => s
  thematicBreak := fun _ s => s
  inlineCode := fun s => s
  strong := fun s => s
  emphasis := fun s => s
  link := fun s => s
  strikethrough := fun s => s
  tableHeader := fun s => s
  tableCell := fun s => s
  tableBorder := fun s => s
  vw := List.length

/-! ### Lines of a rendered string -/

/-- The lines of a string: split at every `'\n'`. -/
def splitNl : Str → List Str
  | [] => [[]]
  | c :: rest =>
      if c = '\n' then [] :: splitNl rest
      else (c :: (splitNl rest).headI) :: (splitNl rest).tail

theorem splitNl_ne_nil (s : Str) : splitNl s ≠ [] := by
  cases s with
  | nil => simp [splitNl]
  | cons c rest =>
      unfold splitNl
      split <;> simp

theorem splitNl_cons_of_ne (c : Char) (rest l : Str) (ls : List Str)
    (hc : c ≠ '\n') (hs : splitNl rest = l :: ls) :
    splitNl (c :: rest) = (c :: l) :: ls := by
  unfold splitNl
  simp [hc, hs]

theorem splitNl_cons_nl (rest : Str) :
    splitNl ('\n' :: rest) = [] :: splitNl rest := by
  conv_lhs => unfold splitNl
  simp

/-- Splitting distributes over a `'\n'` separator: every line of
`a ++ '\n' :: b` is a line of `a` or a line of `b`. -/
theorem splitNl_append_nl (a b : Str) :
    splitNl (a ++ '\n' :: b) = splitNl a ++ splitNl b := by
  induction a with
  | nil => simp [splitNl]
  | cons c rest ih =>
      by_cases hc : c = '\n'
      · subst hc
        rw [List.cons_append, splitNl_cons_nl, splitNl_cons_nl, ih]
        rfl
      · cases hs : splitNl rest with
        | nil => exact absurd hs (splitNl_ne_nil rest)
        | cons l ls =>
            rw [List.cons_append,
              splitNl_cons_of_ne c (rest ++ '\n' :: b) l (ls ++ splitNl b)
                hc (by rw [ih, hs]; rfl),
              splitNl_cons_of_ne c rest l ls hc hs]
            rfl

/-- Prepending newline-free text only extends the first line. -/
theorem splitNl_append_no_nl (p s : Str) (hp : ∀ c ∈ p, c ≠ '\n') :
    splitNl (p ++ s) = (splitNl s).modifyHead (fun l => p ++ l) := by
  induction p with
  | nil =>
      cases hs : splitNl s with
      | nil => exact absurd hs (splitNl_ne_nil s)
      | cons l ls => simp [hs]
  | cons c rest ih =>
      have hc : c ≠ '\n' := hp c (by simp)
      have hrest : ∀ x ∈ rest, x ≠ '\n' := fun x hx => hp x (by simp [hx])
      have hih := ih hrest
      cases hs : splitNl s with
      | nil => exact absurd hs (splitNl_ne_nil s)
      | cons l ls =>
          rw [hs] at hih
          simp only [List.modifyHead] at hih ⊢
          rw [List.cons_append,
            splitNl_cons_of_ne c (rest ++ s) (rest ++ l) ls hc hih]
          rfl

theorem indentOf_no_nl (d : Nat) : ∀ c ∈ indentOf d, c ≠ '\n' := by
  intro c hc
  have hsp : c = ' ' := by
    simp only [indentOf, List.mem_flatten, List.mem_replicate] at hc
    obtain ⟨l, ⟨-, hl⟩, hcl⟩ := hc
    subst hl
    simpa using hcl
  subst hsp
  decide

theorem natDecimalAux_mem (n : Nat) (acc : Str) (c : Char)
    (hc : c ∈ natDecimalAux n acc) :
    c ∈ acc ∨ ∃ d, d < 10 ∧ c = digitChar d := by
  induction n using Nat.strong_induction_on generalizing acc with
  | _ n ih =>
      unfold natDecimalAux at hc
      split at hc
      · next h =>
          rcases List.mem_cons.mp hc with h1 | h1
          · exact Or.inr ⟨n, h, h1⟩
          · exact Or.inl h1
      · next h =>
          have hlt : n / 10 < n := Nat.div_lt_self (by omega) (by omega)
          rcases ih (n / 10) hlt _ hc with h1 | h1
          · rcases List.mem_cons.mp h1 with h2 | h2
            · exact Or.inr ⟨n % 10, Nat.mod_lt n (by omega), h2⟩
            · exact Or.inl h2
          · exact Or.inr h1

theorem digitChar_ne_nl : ∀ d, d < 10 → digitChar d ≠ '\n' := by decide

theorem intDecimal_no_nl (i : Int) : ∀ c ∈ intDecimal i, c ≠ '\n' := by
  intro c hc
  cases i with
  | ofNat n =>
      rcases natDecimalAux_mem n [] c (by simpa [intDecimal, natDecimal] using hc)
        with h | ⟨d, hd, he⟩
      · simp at h
      · subst he; exact digitChar_ne_nl d hd
  | negSucc n =>
      simp only [intDecimal] at hc
      rcases List.mem_cons.mp hc with h | h
      · subst h; decide
      · rcases natDecimalAux_mem (n + 1) [] c (by simpa [natDecimal] using h)
          with h1 | ⟨d, hd, he⟩
        · simp at h1
        · subst he; exact digitChar_ne_nl d hd

theorem markerOf_no_nl (pctx : PCtx) : ∀ c ∈ markerOf pctx, c ≠ '\n' := by
  intro c hc
  match pctx with
  | some (true, start, k) =>
      simp only [markerOf, List.mem_append] at hc
      rcases hc with h | h
      · exact intDecimal_no_nl _ c h
      · rcases List.mem_cons.mp h with h1 | h1
        · subst h1; decide
        · simp at h1; subst h1; decide
  | some (false, start, k) =>
      simp only [markerOf] at hc
      rcases List.mem_cons.mp hc with h | h
      · subst h; decide
      · simp at h; subst h; decide
  | none =>
      simp only [markerOf] at hc
      rcases List.mem_cons.mp hc with h | h
      · subst h; decide
      · simp at h; subst h; decide

/-! ### List layout -/

/-- Whether a node is a `*ast.List` (the type assertion of the
`ListItem` loop). -/
def isListNode : Node → Bool
  | .list _ _ _ => true
  | _ => false

/-- Indexed map, carrying the 0-based sibling position. -/
def idxMapFrom (f : Nat → Node → Str) : Nat → List Node → List Str
  | _, [] => []
  | k, c :: rest => f k c :: idxMapFrom f (k + 1) rest

theorem renderListKids_eq_idxMap (st : Styles) (ordered : Bool) (start : Int)
    (cs : List Node) (k : Nat) (d : Nat) (w : Int) :
    renderListKids st ordered start cs k d w =
      (idxMapFrom (fun i c => renderNode st (some (ordered, start, i)) c d w)
        k cs).flatten := by
  induction cs generalizing k with
  | nil => simp [renderListKids, idxMapFrom]
  | cons c rest ih => simp [renderListKids, idxMapFrom, ih]

theorem itemTextPart_eq_filter (st : Styles) (cs : List Node) (d : Nat)
    (w : Int) :
    itemTextPart st cs d w =
      ((cs.filter (fun c => ! isListNode c)).map
        (fun c => renderNode st none c (d + 1) w)).flatten := by
  induction cs with
  | nil => simp [itemTextPart]
  | cons c rest ih => cases c <;> simp [itemTextPart, isListNode, ih]

theorem itemListPart_eq_filter (st : Styles) (cs : List Node) (d : Nat)
    (w : Int) :
    itemListPart st cs d w =
      ((cs.filter isListNode).map
        (fun c => renderNode st none c (d + 1) w)).flatten := by
  induction cs with
  | nil => simp [itemListPart]
  | cons c rest ih => cases c <;> simp [itemListPart, isListNode, ih]

/-- The `ListItem` case, re-associated: own content line block, one
newline, then the nested-list block. -/
theorem listItem_render_decomp (st : Styles) (pctx : PCtx) (cs : List Node)
    (d : Nat) (w : Int) :
    renderNode st pctx (.listItem cs) d w =
      (indentOf d ++ (markerOf pctx ++ trimRightNewlines (itemTextPart st cs d w)))
        ++ '\n' :: itemListPart st cs d w := by
  simp [renderNode]

/-! ### Table layout lemmas -/

/-- The spec's column width: the maximum visual width over the cells
present in column `j`, across all rows including the header. -/
def colWidthSpec (vw : Str → Nat) (rows : List (Bool × List Str))
    (j : Nat) : Int :=
  rows.foldl (fun a r =>
    match r.2[j]? with
    | some cell => max a ((vw cell : Int))
    | none => a) 0

theorem bumpRow_length (vw : Str → Nat) (acc : List Int) (cells : List Str) :
    (bumpRow vw acc cells).length = acc.length := by
  induction acc generalizing cells with
  | nil => cases cells <;> simp [bumpRow]
  | cons a tl ih =>
      cases cells with
      | nil => simp [bumpRow]
      | cons c cs => simp [bumpRow, ih]

theorem bumpRow_getD (vw : Str → Nat) (acc : List Int) (cells : List Str)
    (j : Nat) (hj : j < acc.length) :
    (bumpRow vw acc cells).getD j 0 =
      match cells[j]? with
      | some c => max (acc.getD j 0) ((vw c : Int))
      | none => acc.getD j 0 := by
  induction acc generalizing cells j with
  | nil => simp at hj
  | cons a tl ih =>
      cases cells with
      | nil => simp [bumpRow]
      | cons c cs =>
          cases j with
          | zero =>
              show (bumpRow vw (a :: tl) (c :: cs)).getD 0 0 = _
              simp only [bumpRow]
              have : (if ((vw c : Int)) > a then ((vw c : Int)) else a) =
                  max a ((vw c : Int)) := by
                split <;> omega
              simp [this]
          | succ j' =>
              show (bumpRow vw (a :: tl) (c :: cs)).getD (j' + 1) 0 = _
              simp only [bumpRow, List.getD_cons_succ]
              rw [ih cs j' (by simpa using hj)]
              simp

theorem foldl_bumpRow_getD (vw : Str → Nat) (rows : List (Bool × List Str))
    (init : List Int) (j : Nat) (hj : j < init.length) :
    (rows.foldl (fun acc r => bumpRow vw acc r.2) init).getD j 0 =
      rows.foldl (fun a r =>
        match r.2[j]? with
        | some cell => max a ((vw cell : Int))
        | none => a) (init.getD j 0) := by
  induction rows generalizing init with
  | nil => simp
  | cons r rest ih =>
      simp only [List.foldl_cons]
      rw [ih (bumpRow vw init r.2) (by rw [bumpRow_length]; exact hj),
        bumpRow_getD vw init r.2 j hj]

end Ink

open Ink

/-- C7: the column width used by `renderTable` for column `j` is the
maximum visual (escape-insensitive, abstract `vw`) width over that
column's cells across all rows including the header; `alignCell` pads
a narrower cell to the column width with spaces — on the right for
left/none alignment, on the left for right alignment, split for
center with the odd extra space on the right — and emits a cell at or
above the column width unpadded. -/
theorem C7_table_padding (vw : Str → Nat) (rows : List (Bool × List Str))
    (j : Nat) (s : Str) (width : Int) (a : Ink.Alignment)
    (hj : j < numColsOf rows) :
    (colWidthsOf vw rows (numColsOf rows)).getD j 0 = colWidthSpec vw rows j
    ∧ (width ≤ (vw s : Int) → alignCell vw s width a = s)
    ∧ (0 < width - (vw s : Int) →
        (alignCell vw s width .align_left =
            s ++ List.replicate (width - (vw s : Int)).toNat ' '
        ∧ alignCell vw s width .align_none =
            s ++ List.replicate (width - (vw s : Int)).toNat ' '
        ∧ alignCell vw s width .align_right =
            List.replicate (width - (vw s : Int)).toNat ' ' ++ s
        ∧ alignCell vw s width .align_center =
            List.replicate ((width - (vw s : Int)) / 2).toNat ' ' ++ s ++
              List.replicate
                ((width - (vw s : Int)) - (width - (vw s : Int)) / 2).toNat ' '
        ∧ ((width - (vw s : Int)) / 2).toNat
            + ((width - (vw s : Int)) - (width - (vw s : Int)) / 2).toNat
            = (width - (vw s : Int)).toNat
        ∧ (width - (vw s : Int)) - (width - (vw s : Int)) / 2
            = (width - (vw s : Int)) / 2 + (width - (vw s : Int)) % 2)) := by
  refine ⟨?_, ?_, ?_⟩
  · unfold colWidthsOf colWidthSpec
    rw [foldl_bumpRow_getD vw rows _ j (by simpa using hj)]
    simp
  · intro hge
    unfold alignCell
    rw [if_pos (by omega)]
  · intro hgap
    refine ⟨?_, ?_, ?_, ?_, by omega, by omega⟩ <;>
      · unfold alignCell
        rw [if_neg (by omega)]

/-- Witness for C7 at a one-column table and a concrete narrow cell. -/
theorem C7_table_padding_witness :
    (0 < numColsOf [(true, [['a']])])
    ∧ ((colWidthsOf List.length [(true, [['a']])]
          (numColsOf [(true, [['a']])])).getD 0 0 =
        colWidthSpec List.length [(true, [['a']])] 0
      ∧ ((3 : Int) ≤ (List.length ['a'] : Int) →
          alignCell List.length ['a'] 3 .align_center = ['a'])
      ∧ (0 < (3 : Int) - (List.length ['a'] : Int) →
          (alignCell List.length ['a'] 3 .align_left =
              ['a'] ++ List.replicate ((3 : Int) - (List.length ['a'] : Int)).toNat ' '
          ∧ alignCell List.length ['a'] 3 .align_none =
              ['a'] ++ List.replicate ((3 : Int) - (List.length ['a'] : Int)).toNat ' '
          ∧ alignCell List.length ['a'] 3 .align_right =
              List.replicate ((3 : Int) - (List.length ['a'] : Int)).toNat ' ' ++ ['a']
          ∧ alignCell List.length ['a'] 3 .align_center =
              List.replicate (((3 : Int) - (List.length ['a'] : Int)) / 2).toNat ' '
                ++ ['a'] ++
                List.replicate
                  (((3 : Int) - (List.length ['a'] : Int))
                    - ((3 : Int) - (List.length ['a'] : Int)) / 2).toNat ' '
          ∧ (((3 : Int) - (List.length ['a'] : Int)) / 2).toNat
              + (((3 : Int) - (List.length ['a'] : Int))
                  - ((3 : Int) - (List.length ['a'] : Int)) / 2).toNat
              = ((3 : Int) - (List.length ['a'] : Int)).toNat
          ∧ ((3 : Int) - (List.length ['a'] : Int))
              - ((3 : Int) - (List.length ['a'] : Int)) / 2
              = ((3 : Int) - (List.length ['a'] : Int)) / 2
                + ((3 : Int) - (List.length ['a'] : Int)) % 2))) :=
  ⟨by decide,
    C7_table_padding List.length [(true, [['a']])] 0 ['a'] 3 .align_center
      (by decide)⟩

open Ink

/-- C5: in the render of a `List` node, the `k`-th child (0-based
position among its siblings, which are all `ListItem`s) is rendered
with sibling index `k`; an ordered item's emitted marker is
`"<start+k>. "` and an unordered item's is `"• "`. The numbering comes
from the sibling position carried per child, not from a counter
mutated across recursive calls. -/
theorem C5_list_marker_numbering (st : Styles) (pc : PCtx) (ordered : Bool)
    (start : Int) (items : List Node) (d : Nat) (w : Int)
    (_hItems : ∀ n ∈ items, ∃ cs, n = Node.listItem cs) :
    renderNode st pc (.list ordered start items) d w =
      (idxMapFrom (fun k c => renderNode st (some (ordered, start, k)) c d w)
        0 items).flatten ++ ['\n']
    ∧ ∀ k cs, items[k]? = some (.listItem cs) →
        renderNode st (some (ordered, start, k)) (.listItem cs) d w =
          indentOf d ++
            ((if ordered then intDecimal (start + (k : Int)) ++ ['.', ' ']
              else ['•', ' ']) ++
              (trimRightNewlines (itemTextPart st cs d w) ++
                '\n' :: itemListPart st cs d w)) := by
  constructor
  · rw [show renderNode st pc (.list ordered start items) d w =
        renderListKids st ordered start items 0 d w ++ ['\n'] from by
      simp [renderNode]]
    rw [renderListKids_eq_idxMap]
  · intro k cs _
    rw [listItem_render_decomp]
    have hm : markerOf (some (ordered, start, k)) =
        (if ordered then intDecimal (start + (k : Int)) ++ ['.', ' ']
          else ['•', ' ']) := by
      cases ordered <;> simp [markerOf]
    rw [hm]
    simp [List.append_assoc]

/-- Witness for C5: a two-item ordered list starting at 3. -/
theorem C5_list_marker_numbering_witness :
    (∀ n ∈ ([Node.listItem [], Node.listItem []] : List Node),
        ∃ cs, n = Node.listItem cs)
    ∧ (renderNode idStyles none
          (.list true 3 [Node.listItem [], Node.listItem []]) 0 80 =
        (idxMapFrom
          (fun k c => renderNode idStyles (some (true, 3, k)) c 0 80)
          0 [Node.listItem [], Node.listItem []]).flatten ++ ['\n']
      ∧ ∀ k cs,
          ([Node.listItem [], Node.listItem []] : List Node)[k]? =
            some (.listItem cs) →
          renderNode idStyles (some (true, 3, k)) (.listItem cs) 0 80 =
            indentOf 0 ++
              ((if true then intDecimal (3 + (k : Int)) ++ ['.', ' ']
                else ['•', ' ']) ++
                (trimRightNewlines (itemTextPart idStyles cs 0 80) ++
                  '\n' :: itemListPart idStyles cs 0 80))) := by
  refine ⟨?_, C5_list_marker_numbering idStyles none true 3
    [Node.listItem [], Node.listItem []] 0 80 ?_⟩ <;>
  · intro n hn
    rcases List.mem_cons.mp hn with h | h
    · exact ⟨[], h⟩
    · rcases List.mem_cons.mp h with h1 | h1
      · exact ⟨[], h1⟩
      · simp at h1

/-- C6: the render of a `ListItem` is its own-content block (indent,
marker, then the trimmed renders of its non-`List` children in their
original order), one newline, then the nested-list block (the renders
of its `List` children in their original order); consequently every
output line is a line of the own-content block or a line of the
nested-list block — no line mixes the two. -/
theorem C6_nested_lists_after_text (st : Styles) (pctx : PCtx) (cs : List Node)
    (d : Nat) (w : Int) :
    renderNode st pctx (.listItem cs) d w =
      (indentOf d ++ (markerOf pctx ++ trimRightNewlines (itemTextPart st cs d w)))
        ++ '\n' :: itemListPart st cs d w
    ∧ splitNl (renderNode st pctx (.listItem cs) d w) =
        splitNl (indentOf d ++
            (markerOf pctx ++ trimRightNewlines (itemTextPart st cs d w)))
          ++ splitNl (itemListPart st cs d w)
    ∧ itemTextPart st cs d w =
        ((cs.filter (fun c => ! isListNode c)).map
          (fun c => renderNode st none c (d + 1) w)).flatten
    ∧ itemListPart st cs d w =
        ((cs.filter isListNode).map
          (fun c => renderNode st none c (d + 1) w)).flatten := by
  refine ⟨listItem_render_decomp st pctx cs d w, ?_,
    itemTextPart_eq_filter st cs d w, itemListPart_eq_filter st cs d w⟩
  rw [listItem_render_decomp, splitNl_append_nl]

/-- C10: in a `ListItem`'s output, the indent-and-marker prefix is
attached to the first line of the item's own (multi-line) content
only; every later line of the own content appears unmodified, with no
added indentation. -/
theorem C10_prefix_on_first_line_only (st : Styles) (pctx : PCtx)
    (cs : List Node) (d : Nat) (w : Int) :
    splitNl (renderNode st pctx (.listItem cs) d w) =
      (splitNl (trimRightNewlines (itemTextPart st cs d w))).modifyHead
          (fun l => indentOf d ++ (markerOf pctx ++ l))
        ++ splitNl (itemListPart st cs d w) := by
  rw [listItem_render_decomp, splitNl_append_nl,
    splitNl_append_no_nl _ _ (indentOf_no_nl d),
    splitNl_append_no_nl _ _ (markerOf_no_nl pctx)]
  cases hs : splitNl (trimRightNewlines (itemTextPart st cs d w)) with
  | nil => exact absurd hs (splitNl_ne_nil _)
  | cons l ls => simp [List.modifyHead]

open Ink

/-- C4: for every source that begins with the three-hyphen opening
delimiter but whose CRLF-normalized form contains no `"\n---"` after
the opening three bytes, `stripFrontMatter` returns the input
byte-for-byte unchanged — nothing is truncated and no CRLF
normalization is visible in the result. -/
theorem C4_no_close_returns_input (source : Str)
    (h1 : fmDelim.isPrefixOf source)
    (h2 : indexOf? fmClose ((normalizeCRLF source).drop 3) = none) :
    stripFrontMatter source = source :=
  strip_eq_self_of_no_close source h1 h2

/-- Witness for C4 at the concrete source `"---\r\nno closing"`. -/
theorem C4_no_close_returns_input_witness :
    (fmDelim.isPrefixOf (("---\r\nno closing").toList)
      ∧ indexOf? fmClose
          ((normalizeCRLF (("---\r\nno closing").toList)).drop 3) = none)
    ∧ stripFrontMatter (("---\r\nno closing").toList) =
        ("---\r\nno closing").toList :=
  ⟨⟨by decide, by decide⟩,
    C4_no_close_returns_input (("---\r\nno closing").toList) (by decide) (by decide)⟩

/-- C2 counterexample: front-matter stripping is not idempotent. On
this source the first strip leaves a result that itself begins with a
second strippable front-matter block, so a second strip removes more. -/
theorem C2_strip_not_idempotent_cex :
    stripFrontMatter (stripFrontMatter (("---\na\n---\n\n---\nb\n---\nc").toList)) ≠
      stripFrontMatter (("---\na\n---\n\n---\nb\n---\nc").toList) := by
  decide

/-- C2 (amended): stripping front matter is idempotent at every source
whose once-stripped result is not itself strippable — that is, unless
the result of the first strip again begins with `---` and its
CRLF-normalized form contains a further `"\n---"` closing delimiter. -/
theorem C2_strip_idempotent_unless_restrippable (s : Str)
    (h : ¬ (fmDelim.isPrefixOf (stripFrontMatter s)
        ∧ (indexOf? fmClose ((normalizeCRLF (stripFrontMatter s)).drop 3)).isSome)) :
    stripFrontMatter (stripFrontMatter s) = stripFrontMatter s := by
  by_cases hp : fmDelim.isPrefixOf (stripFrontMatter s)
  · have h2 : indexOf? fmClose ((normalizeCRLF (stripFrontMatter s)).drop 3) = none := by
      cases he : indexOf? fmClose ((normalizeCRLF (stripFrontMatter s)).drop 3) with
      | none => rfl
      | some e => exact absurd ⟨hp, by rw [he]; rfl⟩ h
    exact strip_eq_self_of_no_close _ hp h2
  · exact strip_eq_self_of_not_delim _ hp

/-- Witness for the amended C2 at the concrete source
`"---\nx\n---\nbody"`, whose stripped result `"body"` is not
strippable. -/
theorem C2_strip_idempotent_unless_restrippable_witness :
    stripFrontMatter (stripFrontMatter (("---\nx\n---\nbody").toList)) =
      stripFrontMatter (("---\nx\n---\nbody").toList) :=
  C2_strip_idempotent_unless_restrippable (("---\nx\n---\nbody").toList) (by decide)

/-- C3 counterexample: with closing line `---xyz`, the characters
`xyz` that follow the three hyphens on the closing delimiter line
survive into the output: the result is `"xyz\nbody"`, not `"body"` as
the claim (no character of the closing line appears in the result)
would require. -/
theorem C3_trailing_close_chars_kept_cex :
    stripFrontMatter (("---\na\n---xyz\nbody").toList) = ("xyz\nbody").toList ∧
      stripFrontMatter (("---\na\n---xyz\nbody").toList) ≠ ("body").toList := by
  exact ⟨by decide, by decide⟩

/-- C3 (amended): for every source beginning with `---` whose
CRLF-normalized form is `"---" ++ pre ++ "\n---" ++ post` with no
closing delimiter inside `pre`, the result is exactly `post` — the
text beginning right after the three hyphens of the `"\n---"` match,
so characters following them on the closing line are retained — with
all immediately following newline characters trimmed from its start. -/
theorem C3_strips_after_first_close (source pre post : Str)
    (hp : fmDelim.isPrefixOf source)
    (hn : normalizeCRLF source = fmDelim ++ (pre ++ (fmClose ++ post)))
    (hNoPre : ∀ j, j < pre.length → ¬ fmClose.isPrefixOf (pre.drop j)) :
    stripFrontMatter source = post.dropWhile (· = '\n') := by
  have hidx : indexOf? fmClose ((normalizeCRLF source).drop 3) = some pre.length := by
    rw [hn]
    have hdrop3 : (fmDelim ++ (pre ++ (fmClose ++ post))).drop 3 =
        pre ++ (fmClose ++ post) := by
      simp [fmDelim]
    rw [hdrop3]
    apply indexOf?_eq_some_of_first
    · have : (pre ++ (fmClose ++ post)).drop pre.length = fmClose ++ post := by
        simp
      rw [this]
      exact List.isPrefixOf_iff_prefix.mpr (List.prefix_append _ _)
    · intro j hj
      by_cases hjl : j < pre.length
      · exact fmClose_no_junction pre post j hjl hNoPre
      · omega
  unfold stripFrontMatter
  simp only [hp, not_true_eq_false, if_false, hidx]
  show ((normalizeCRLF source).drop (3 + pre.length + 4)).dropWhile (· = '\n') =
    post.dropWhile (· = '\n')
  rw [hn]
  have h1 : (fmDelim ++ (pre ++ (fmClose ++ post))).drop (3 + pre.length + 4) = post := by
    have e1 : 3 + pre.length + 4 = fmDelim.length + (pre.length + 4) := by
      simp [fmDelim]; omega
    rw [e1, drop_length_add, drop_length_add]
    have e4 : (4 : Nat) = fmClose.length + 0 := by simp [fmClose, fmDelim]
    rw [e4, drop_length_add]
    simp
  rw [h1]

/-- Witness for the amended C3 at the spec's CRLF scenario
`"---\r\ntitle: Test\r\n---\r\n\r\n# Hello"`. -/
theorem C3_strips_after_first_close_witness :
    stripFrontMatter (("---\r\ntitle: Test\r\n---\r\n\r\n# Hello").toList) =
      (("\n\n# Hello").toList).dropWhile (· = '\n') :=
  C3_strips_after_first_close
    (("---\r\ntitle: Test\r\n---\r\n\r\n# Hello").toList)
    (("\ntitle: Test").toList) (("\n\n# Hello").toList)
    (by decide) (by decide) (by decide)

namespace Ink

/-! ### The recursive walk's width and depth -/

/-- Whether a node is a `*ast.Blockquote`. -/
def isBlockquoteNode : Node → Bool
  | .blockquote _ => true
  | _ => false

/-- Whether a node is a `*ast.ListItem`. -/
def isListItemNode : Node → Bool
  | .listItem _ => true
  | _ => false

/-- The `(child, width, depth)` triples `renderNode` recurses on for
each block node, read off the dispatch in `render.go`: `Blockquote`
narrows the width by 3 and deepens; `ListItem` deepens both its text
and nested-list children at the same width; `Document`, `List` and the
default case recurse unchanged; the remaining kinds recurse into no
block children. -/
def childCalls : Node → Int → Nat → List (Node × Int × Nat)
  | .document cs, w, d => cs.map (fun c => (c, w, d))
  | .heading _ _, _, _ => []
  | .paragraph _, _, _ => []
  | .codeBlock _, _, _ => []
  | .blockquote cs, w, d => cs.map (fun c => (c, w - 3, d + 1))
  | .list _ _ cs, w, d => cs.map (fun c => (c, w, d))
  | .listItem cs, w, d => cs.map (fun c => (c, w, d + 1))
  | .table _ _, _, _ => []
  | .thematicBreak, _, _ => []
  | .textBlock _, _, _ => []
  | .unknown cs, w, d => cs.map (fun c => (c, w, d))

/-- One parent-to-child step of the walk. -/
def WalkStep (p q : Node × Int × Nat) : Prop :=
  q ∈ childCalls p.1 p.2.1 p.2.2

theorem childCalls_mem (n : Node) (w : Int) (d : Nat) (c : Node) (w' : Int)
    (d' : Nat) (h : (c, w', d') ∈ childCalls n w d) :
    (w' = if isBlockquoteNode n then w - 3 else w)
    ∧ (d' = if isBlockquoteNode n || isListItemNode n then d + 1 else d) := by
  cases n <;> simp only [childCalls, List.mem_map, List.not_mem_nil] at h <;>
    try (obtain ⟨x, -, hx⟩ := h
         simp only [Prod.mk.injEq] at hx
         obtain ⟨rfl, rfl, rfl⟩ := hx
         simp [isBlockquoteNode, isListItemNode])

theorem walkStep_width_le (p q : Node × Int × Nat) (h : WalkStep p q) :
    q.2.1 ≤ p.2.1 := by
  obtain ⟨n, w, d⟩ := p
  obtain ⟨c, w', d'⟩ := q
  show w' ≤ w
  have h' : (c, w', d') ∈ childCalls n w d := h
  have := (childCalls_mem n w d c w' d' h').1
  split at this <;> omega

end Ink

open Ink

/-- C9: along the recursive walk, a child's width equals its parent's
width except under `Blockquote`, where it is exactly width − 3 (so
list nesting never narrows the width and the width is monotonically
non-increasing along every walk path), and the depth grows by exactly
1 at `Blockquote` and `ListItem` children and is unchanged elsewhere. -/
theorem C9_walk_width_depth (n : Node) (w : Int) (d : Nat) (c : Node)
    (w' : Int) (d' : Nat) (h : (c, w', d') ∈ childCalls n w d) :
    (w' = if isBlockquoteNode n then w - 3 else w)
    ∧ w' ≤ w
    ∧ (isListNode n ∨ isListItemNode n → w' = w)
    ∧ (d' = if isBlockquoteNode n || isListItemNode n then d + 1 else d)
    ∧ ∀ p q : Node × Int × Nat,
        Relation.ReflTransGen WalkStep p q → q.2.1 ≤ p.2.1 := by
  obtain ⟨h1, h2⟩ := childCalls_mem n w d c w' d' h
  refine ⟨h1, by split at h1 <;> omega, ?_, h2, ?_⟩
  · intro hn
    rcases hn with hn | hn <;>
      · cases n <;> simp_all [isListNode, isListItemNode, isBlockquoteNode]
  · intro p q hpq
    induction hpq with
    | refl => exact le_refl _
    | tail _ hstep ih => exact le_trans (walkStep_width_le _ _ hstep) ih

/-- Witness for C9: the single paragraph child of a blockquote at
width 80, depth 0 gets width 77, depth 1. -/
theorem C9_walk_width_depth_witness :
    ((Node.paragraph [], (77 : Int), 1) ∈
        childCalls (Node.blockquote [Node.paragraph []]) 80 0)
    ∧ (((77 : Int)) =
          (if isBlockquoteNode (Node.blockquote [Node.paragraph []])
            then (80 : Int) - 3 else 80)
      ∧ (77 : Int) ≤ 80
      ∧ (isListNode (Node.blockquote [Node.paragraph []])
          ∨ isListItemNode (Node.blockquote [Node.paragraph []]) →
            (77 : Int) = 80)
      ∧ ((1 : Nat) =
          (if isBlockquoteNode (Node.blockquote [Node.paragraph []])
              || isListItemNode (Node.blockquote [Node.paragraph []])
            then 0 + 1 else 0))
      ∧ ∀ p q : Node × Int × Nat,
          Relation.ReflTransGen WalkStep p q → q.2.1 ≤ p.2.1) := by
  have hmem : (Node.paragraph [], (77 : Int), 1) ∈
      childCalls (Node.blockquote [Node.paragraph []]) 80 0 := by
    simp [childCalls]
  exact ⟨hmem,
    C9_walk_width_depth (Node.blockquote [Node.paragraph []]) 80 0
      (Node.paragraph []) 77 1 hmem⟩

namespace Ink

/-! ### Whole-document output shape -/

theorem head?_dropWhile_eq_some {p : Char → Bool} (l : Str) (c : Char)
    (h : (l.dropWhile p).head? = some c) : p c = false := by
  induction l with
  | nil => simp [List.dropWhile] at h
  | cons x rest ih =>
      by_cases hx : p x
      · exact ih (by simpa [List.dropWhile, hx] using h)
      · have : x = c := by simpa [List.dropWhile, hx] using h
        subst this
        simpa using hx

theorem trimRightNewlines_no_trailing (s : Str) :
    (trimRightNewlines s).getLast? ≠ some '\n' := by
  intro h
  unfold trimRightNewlines at h
  rw [List.getLast?_reverse] at h
  have := head?_dropWhile_eq_some _ _ h
  simp at this

end Ink

open Ink

/-- C8: the string returned by `Render` never ends in a newline (all
trailing newlines of the assembled document are trimmed), and when the
external parser turns the (stripped) input into an empty document — as
goldmark does for empty or whitespace-only input — the returned string
is exactly empty. -/
theorem C8_no_trailing_newline_and_empty_input (st : Styles)
    (parse : Str → Node) (source : Str) (w : Int) :
    (Render st parse source w).getLast? ≠ some '\n'
    ∧ (parse (stripFrontMatter source) = .document [] →
        Render st parse source w = []) := by
  constructor
  · unfold Render
    exact trimRightNewlines_no_trailing _
  · intro hp
    unfold Render
    rw [hp]
    simp [renderNode, renderChildren, trimRightNewlines]

/-- Witness for C8 at the empty source and the empty-document parse. -/
theorem C8_no_trailing_newline_and_empty_input_witness :
    ((Render idStyles (fun _ => Node.document []) [] 80).getLast? ≠ some '\n')
    ∧ ((fun _ : Str => Node.document []) (stripFrontMatter []) =
          Node.document [] →
        Render idStyles (fun _ => Node.document []) [] 80 = []) :=
  C8_no_trailing_newline_and_empty_input idStyles (fun _ => Node.document []) [] 80

namespace Ink

/-! ### Bounds-checked variants

Every Go operation in `renderTable`/`alignCell` that can panic —
`strings.Repeat` with a negative count, the unguarded `colWidths[i]`
and `colWidths[j]` indexings — is modelled with an `Option`: `none`
exactly where Go would panic. -/

/-- `strings.Repeat(string(c), n)`: panics (`none`) on a negative
count. -/
def goRepeat (c : Char) (n : Int) : Option Str :=
  if n < 0 then none else some (List.replicate n.toNat c)

/-- `alignCell` with checked space repeats. -/
def alignCellChk (vw : Str → Nat) (s : Str) (width : Int) (a : Alignment) :
    Option Str :=
  let gap : Int := width - (vw s : Int)
  if gap ≤ 0 then some s
  else
    match a with
    | .align_center => do
        let l ← goRepeat ' ' (gap / 2)
        let r ← goRepeat ' ' (gap - gap / 2)
        pure (l ++ s ++ r)
    | .align_right => do
        let l ← goRepeat ' ' gap
        pure (l ++ s)
    | _ => do
        let r ← goRepeat ' ' gap
        pure (s ++ r)

/-- One row of the `colWidths` loop with the `colWidths[i]` indexing
checked: `none` when a row has more cells than `colWidths` entries. -/
def bumpRowChk (vw : Str → Nat) : List Int → List Str → Option (List Int)
  | a :: tl, c :: cs =>
      (bumpRowChk vw tl cs).map
        (fun rest => (if (vw c : Int) > a then (vw c : Int) else a) :: rest)
  | tl, [] => some tl
  | [], _ :: _ => none

def colWidthsChk (vw : Str → Nat) (rows : List (Bool × List Str))
    (numCols : Nat) : Option (List Int) :=
  rows.foldlM (fun acc r => bumpRowChk vw acc r.2) (List.replicate numCols 0)

/-- The separator with checked `strings.Repeat("─", w+2)`. -/
def separatorChk (colWidths : List Int) : Option Str := do
  let parts ← colWidths.mapM (fun w => goRepeat '─' (w + 2))
  pure ('├' :: (List.intercalate ['┼'] parts) ++ ['┤'])

/-- One table line with the unguarded `colWidths[j]` indexing and the
space repeats checked. -/
def renderRowChk (st : Styles) (aligns : List Alignment)
    (colWidths : List Int) (numCols : Nat) (hdr : Bool) (cells : List Str) :
    Option Str := do
  let segs ← (List.range numCols).mapM (fun j => do
      let cw ← colWidths[j]?
      let padded ←
        (alignCellChk st.vw (cells.getD j [])
            cw (aligns.getD j Alignment.align_none)).map
          (fun x => ' ' :: x ++ [' '])
      pure ((if hdr then st.tableHeader padded else st.tableCell padded) ++
        st.tableBorder ['│']))
  pure (st.tableBorder ['│'] ++ segs.flatten)

def renderTableChk (st : Styles) (aligns : List Alignment)
    (rows : List (Bool × List (List Inline))) (_maxWidth : Int) : Option Str :=
  let rws : List (Bool × List Str) :=
    rows.map (fun r => (r.1, r.2.map (renderInlines st)))
  if rws.isEmpty then some []
  else do
    let colWidths ← colWidthsChk st.vw rws (numColsOf rws)
    let separator ← separatorChk colWidths
    let outRows ← rws.mapM (fun r => do
        let line ← renderRowChk st aligns colWidths (numColsOf rws) r.1 r.2
        pure (line ++ ['\n'] ++
          (if r.1 then st.tableBorder separator ++ ['\n'] else [])))
    pure (outRows.flatten ++ ['\n'])

theorem alignCellChk_eq (vw : Str → Nat) (s : Str) (width : Int)
    (a : Alignment) :
    alignCellChk vw s width a = some (alignCell vw s width a) := by
  unfold alignCellChk alignCell
  by_cases hg : width - (vw s : Int) ≤ 0
  · simp [hg]
  · have h2 : ¬ (width - (vw s : Int)) / 2 < 0 := by omega
    have h3 : ¬ ((width - (vw s : Int)) - (width - (vw s : Int)) / 2) < 0 := by
      omega
    have h4 : ¬ (width - (vw s : Int)) < 0 := by omega
    cases a <;> simp [hg, goRepeat, h2, h3, h4]

theorem bumpRowChk_eq (vw : Str → Nat) (acc : List Int) (cells : List Str)
    (hc : cells.length ≤ acc.length) :
    bumpRowChk vw acc cells = some (bumpRow vw acc cells) := by
  induction acc generalizing cells with
  | nil =>
      cases cells with
      | nil => simp [bumpRowChk, bumpRow]
      | cons c cs => simp at hc
  | cons a tl ih =>
      cases cells with
      | nil => simp [bumpRowChk, bumpRow]
      | cons c cs =>
          have : cs.length ≤ tl.length := by simpa using hc
          simp [bumpRowChk, bumpRow, ih cs this]

theorem foldl_max_ge_acc (rows : List (Bool × List Str)) (acc : Nat) :
    acc ≤ rows.foldl (fun a r => max a r.2.length) acc := by
  induction rows generalizing acc with
  | nil => simp
  | cons x rest ih =>
      simp only [List.foldl_cons]
      exact le_trans (Nat.le_max_left acc x.2.length) (ih _)

theorem mem_le_foldl_max (rows : List (Bool × List Str)) (acc : Nat)
    (r : Bool × List Str) (hr : r ∈ rows) :
    r.2.length ≤ rows.foldl (fun a x => max a x.2.length) acc := by
  induction rows generalizing acc with
  | nil => simp at hr
  | cons x rest ih =>
      simp only [List.foldl_cons]
      rcases List.mem_cons.mp hr with h | h
      · subst h
        exact le_trans (Nat.le_max_right acc r.2.length) (foldl_max_ge_acc _ _)
      · exact ih _ h

theorem le_numColsOf (rows : List (Bool × List Str)) (r : Bool × List Str)
    (hr : r ∈ rows) : r.2.length ≤ numColsOf rows :=
  mem_le_foldl_max rows 0 r hr

theorem foldl_bumpRow_length (vw : Str → Nat) (rows : List (Bool × List Str))
    (init : List Int) :
    (rows.foldl (fun acc r => bumpRow vw acc r.2) init).length = init.length := by
  induction rows generalizing init with
  | nil => simp
  | cons r rest ih =>
      simp only [List.foldl_cons]
      rw [ih, bumpRow_length]

theorem colWidthsOf_length (vw : Str → Nat) (rows : List (Bool × List Str))
    (numCols : Nat) : (colWidthsOf vw rows numCols).length = numCols := by
  unfold colWidthsOf
  rw [foldl_bumpRow_length]
  simp

theorem colWidthsChk_eq (vw : Str → Nat) (rows : List (Bool × List Str))
    (init : List Int) (hrows : ∀ r ∈ rows, r.2.length ≤ init.length) :
    rows.foldlM (fun acc r => bumpRowChk vw acc r.2) init =
      some (rows.foldl (fun acc r => bumpRow vw acc r.2) init) := by
  induction rows generalizing init with
  | nil => simp
  | cons r rest ih =>
      rw [List.foldlM_cons, bumpRowChk_eq vw init r.2 (hrows r (by simp))]
      show (rest.foldlM (fun acc r => bumpRowChk vw acc r.2) (bumpRow vw init r.2)) = _
      rw [ih (bumpRow vw init r.2) (fun x hx => by
        rw [bumpRow_length]
        exact hrows x (by simp [hx]))]
      simp

theorem bumpRow_nonneg (vw : Str → Nat) (acc : List Int) (cells : List Str)
    (hacc : ∀ x ∈ acc, 0 ≤ x) : ∀ x ∈ bumpRow vw acc cells, 0 ≤ x := by
  induction acc generalizing cells with
  | nil => cases cells <;> simp [bumpRow]
  | cons a tl ih =>
      cases cells with
      | nil => simpa [bumpRow] using hacc
      | cons c cs =>
          intro x hx
          simp only [bumpRow, List.mem_cons] at hx
          rcases hx with h | h
          · subst h
            have ha : (0 : Int) ≤ a := hacc a (by simp)
            split <;> omega
          · exact ih cs (fun y hy => hacc y (by simp [hy])) x h

theorem colWidthsOf_nonneg (vw : Str → Nat) (rows : List (Bool × List Str))
    (numCols : Nat) : ∀ x ∈ colWidthsOf vw rows numCols, 0 ≤ x := by
  unfold colWidthsOf
  have hbase : ∀ x ∈ List.replicate numCols (0 : Int), 0 ≤ x := by
    intro x hx
    rw [List.eq_of_mem_replicate hx]
  generalize List.replicate numCols (0 : Int) = init at hbase ⊢
  induction rows generalizing init with
  | nil => simpa using hbase
  | cons r rest ih =>
      simp only [List.foldl_cons]
      exact ih (bumpRow vw init r.2) (bumpRow_nonneg vw init r.2 hbase)

theorem mapM_eq_some {α β : Type} (f : α → Option β) (g : α → β) (l : List α)
    (h : ∀ x ∈ l, f x = some (g x)) : l.mapM f = some (l.map g) := by
  induction l with
  | nil => rfl
  | cons x rest ih =>
      rw [List.mapM_cons, h x (by simp), ih (fun y hy => h y (by simp [hy]))]
      rfl

theorem separatorChk_eq (colWidths : List Int)
    (hw : ∀ x ∈ colWidths, 0 ≤ x) :
    separatorChk colWidths = some (separatorOf colWidths) := by
  unfold separatorChk separatorOf
  rw [mapM_eq_some (fun w => goRepeat '─' (w + 2))
    (fun w => List.replicate (w + 2).toNat '─') colWidths (fun w hwm => by
      have := hw w hwm
      simp [goRepeat]
      omega)]
  rfl

end Ink

namespace Ink

theorem option_bind_some {α β : Type} (x : α) (f : α → Option β) :
    (some x >>= f) = f x := rfl

theorem renderRowChk_eq (st : Styles) (aligns : List Alignment)
    (colWidths : List Int) (numCols : Nat) (hdr : Bool) (cells : List Str)
    (hlen : numCols ≤ colWidths.length) :
    renderRowChk st aligns colWidths numCols hdr cells =
      some (renderRow st aligns colWidths numCols hdr cells) := by
  unfold renderRowChk renderRow
  have hmap : (List.range numCols).mapM (fun j => do
      let cw ← colWidths[j]?
      let padded ←
        (alignCellChk st.vw (cells.getD j [])
            cw (aligns.getD j Alignment.align_none)).map
          (fun x => ' ' :: x ++ [' '])
      pure ((if hdr then st.tableHeader padded else st.tableCell padded) ++
        st.tableBorder ['│'])) =
      some ((List.range numCols).map (fun j =>
        (if hdr then
            st.tableHeader (' ' :: alignCell st.vw (cells.getD j [])
              (colWidths.getD j 0) (aligns.getD j Alignment.align_none) ++ [' '])
          else
            st.tableCell (' ' :: alignCell st.vw (cells.getD j [])
              (colWidths.getD j 0) (aligns.getD j Alignment.align_none) ++ [' '])) ++
          st.tableBorder ['│'])) := by
    apply mapM_eq_some
    intro j hj
    have hjl : j < colWidths.length :=
      lt_of_lt_of_le (List.mem_range.mp hj) hlen
    have h1 : colWidths[j]? = some (colWidths.getD j 0) := by
      rw [List.getElem?_eq_getElem hjl]
      rw [List.getD_eq_getElem colWidths 0 hjl]
    rw [h1]
    simp [alignCellChk_eq]
  rw [hmap]
  rfl

theorem renderTableChk_eq (st : Styles) (aligns : List Alignment)
    (rows : List (Bool × List (List Inline))) (w : Int) :
    renderTableChk st aligns rows w = some (renderTable st aligns rows w) := by
  unfold renderTableChk renderTable
  by_cases he : (rows.map (fun r => (r.1, r.2.map (renderInlines st)))).isEmpty
  · simp [he]
  · simp only [he, if_false]
    have hcw : colWidthsChk st.vw
        (rows.map (fun r => (r.1, r.2.map (renderInlines st))))
        (numColsOf (rows.map (fun r => (r.1, r.2.map (renderInlines st))))) =
        some (colWidthsOf st.vw
          (rows.map (fun r => (r.1, r.2.map (renderInlines st))))
          (numColsOf (rows.map (fun r => (r.1, r.2.map (renderInlines st)))))) := by
      unfold colWidthsChk colWidthsOf
      exact colWidthsChk_eq st.vw _ _ (fun r hr => by
        rw [List.length_replicate]
        exact le_numColsOf _ r hr)
    rw [hcw, option_bind_some]
    have hsep := separatorChk_eq _
      (colWidthsOf_nonneg st.vw
        (rows.map (fun r => (r.1, r.2.map (renderInlines st))))
        (numColsOf (rows.map (fun r => (r.1, r.2.map (renderInlines st))))))
    rw [hsep, option_bind_some]
    have hrowsM := mapM_eq_some
      (fun r : Bool × List Str => do
        let line ← renderRowChk st aligns
          (colWidthsOf st.vw
            (rows.map (fun r => (r.1, r.2.map (renderInlines st))))
            (numColsOf (rows.map (fun r => (r.1, r.2.map (renderInlines st))))))
          (numColsOf (rows.map (fun r => (r.1, r.2.map (renderInlines st)))))
          r.1 r.2
        pure (line ++ ['\n'] ++
          (if r.1 then st.tableBorder (separatorOf
            (colWidthsOf st.vw
              (rows.map (fun r => (r.1, r.2.map (renderInlines st))))
              (numColsOf (rows.map (fun r => (r.1, r.2.map (renderInlines st)))))))
              ++ ['\n'] else [])))
      (fun r : Bool × List Str =>
        renderRow st aligns
          (colWidthsOf st.vw
            (rows.map (fun r => (r.1, r.2.map (renderInlines st))))
            (numColsOf (rows.map (fun r => (r.1, r.2.map (renderInlines st))))))
          (numColsOf (rows.map (fun r => (r.1, r.2.map (renderInlines st)))))
          r.1 r.2 ++ ['\n'] ++
          (if r.1 then st.tableBorder (separatorOf
            (colWidthsOf st.vw
              (rows.map (fun r => (r.1, r.2.map (renderInlines st))))
              (numColsOf (rows.map (fun r => (r.1, r.2.map (renderInlines st)))))))
              ++ ['\n'] else []))
      (rows.map (fun r => (r.1, r.2.map (renderInlines st))))
      (fun r _ => by
        beta_reduce
        rw [renderRowChk_eq st aligns _ _ r.1 r.2 (by rw [colWidthsOf_length])]
        rfl)
    rw [hrowsM, option_bind_some]
    rfl

end Ink

namespace Ink

mutual

/-- `renderNode` with the partial operations (`renderTable`'s
indexings and repeats) checked; every other case is total
concatenation and styling. -/
def renderNodeChk (st : Styles) (pctx : PCtx) (n : Node) (depth : Nat)
    (maxWidth : Int) : Option Str :=
  match n with
  | .document cs => renderChildrenChk st cs depth maxWidth
  | .heading level inl =>
      some ((match level with
        | 1 => st.widthStyle maxWidth (st.h1Badge (renderInlines st inl))
        | 2 => st.h2 maxWidth (renderInlines st inl)
        | 3 => st.h3 maxWidth (renderInlines st inl)
        | _ => st.h4 maxWidth (renderInlines st inl)) ++ ['\n', '\n'])
  | .paragraph inl =>
      some (st.paragraph maxWidth (renderInlines st inl) ++ ['\n'])
  | .codeBlock raw =>
      some (st.codeBlock maxWidth (trimRightNewlines raw) ++ ['\n', '\n'])
  | .blockquote cs =>
      (renderChildrenChk st cs (depth + 1) (maxWidth - 3)).map
        (fun inner =>
          st.blockquote maxWidth (trimRightNewlines inner) ++ ['\n', '\n'])
  | .list ordered start cs =>
      (renderListKidsChk st ordered start cs 0 depth maxWidth).map
        (fun body => body ++ ['\n'])
  | .listItem cs => do
      let t ← itemTextPartChk st cs depth maxWidth
      let l ← itemListPartChk st cs depth maxWidth
      pure (indentOf depth ++ markerOf pctx ++ trimRightNewlines t ++
        ['\n'] ++ l)
  | .table aligns rows => renderTableChk st aligns rows maxWidth
  | .thematicBreak =>
      some (st.thematicBreak maxWidth (List.replicate 40 '─') ++ ['\n', '\n'])
  | .textBlock inl => some (renderInlines st inl)
  | .unknown cs => renderChildrenChk st cs depth maxWidth

def renderChildrenChk (st : Styles) (cs : List Node) (depth : Nat)
    (maxWidth : Int) : Option Str :=
  match cs with
  | [] => some []
  | c :: rest => do
      let x ← renderNodeChk st none c depth maxWidth
      let xs ← renderChildrenChk st rest depth maxWidth
      pure (x ++ xs)

def renderListKidsChk (st : Styles) (ordered : Bool) (start : Int)
    (cs : List Node) (k : Nat) (depth : Nat) (maxWidth : Int) : Option Str :=
  match cs with
  | [] => some []
  | c :: rest => do
      let x ← renderNodeChk st (some (ordered, start, k)) c depth maxWidth
      let xs ← renderListKidsChk st ordered start rest (k + 1) depth maxWidth
      pure (x ++ xs)

def itemTextPartChk (st : Styles) (cs : List Node) (depth : Nat)
    (maxWidth : Int) : Option Str :=
  match cs with
  | [] => some []
  | .list _ _ _ :: rest => itemTextPartChk st rest depth maxWidth
  | c :: rest => do
      let x ← renderNodeChk st none c (depth + 1) maxWidth
      let xs ← itemTextPartChk st rest depth maxWidth
      pure (x ++ xs)

def itemListPartChk (st : Styles) (cs : List Node) (depth : Nat)
    (maxWidth : Int) : Option Str :=
  match cs with
  | [] => some []
  | .list ordered start kids :: rest => do
      let x ← renderNodeChk st none (.list ordered start kids) (depth + 1)
        maxWidth
      let xs ← itemListPartChk st rest depth maxWidth
      pure (x ++ xs)
  | _ :: rest => itemListPartChk st rest depth maxWidth

end

end Ink

namespace Ink

mutual

theorem renderNodeChk_eq (st : Styles) (pctx : PCtx) (n : Node) (depth : Nat)
    (maxWidth : Int) :
    renderNodeChk st pctx n depth maxWidth =
      some (renderNode st pctx n depth maxWidth) := by
  cases n with
  | document cs =>
      simp [renderNodeChk, renderNode, renderChildrenChk_eq st cs depth maxWidth]
  | heading level inl => simp [renderNodeChk, renderNode]
  | paragraph inl => simp [renderNodeChk, renderNode]
  | codeBlock raw => simp [renderNodeChk, renderNode]
  | blockquote cs =>
      simp [renderNodeChk, renderNode,
        renderChildrenChk_eq st cs (depth + 1) (maxWidth - 3)]
  | list ordered start cs =>
      simp [renderNodeChk, renderNode,
        renderListKidsChk_eq st ordered start cs 0 depth maxWidth]
  | listItem cs =>
      simp [renderNodeChk, renderNode,
        itemTextPartChk_eq st cs depth maxWidth,
        itemListPartChk_eq st cs depth maxWidth]
  | table aligns rows =>
      simp [renderNodeChk, renderNode, renderTableChk_eq]
  | thematicBreak => simp [renderNodeChk, renderNode]
  | textBlock inl => simp [renderNodeChk, renderNode]
  | unknown cs =>
      simp [renderNodeChk, renderNode, renderChildrenChk_eq st cs depth maxWidth]

theorem renderChildrenChk_eq (st : Styles) (cs : List Node) (depth : Nat)
    (maxWidth : Int) :
    renderChildrenChk st cs depth maxWidth =
      some (renderChildren st cs depth maxWidth) := by
  cases cs with
  | nil => simp [renderChildrenChk, renderChildren]
  | cons c rest =>
      simp [renderChildrenChk, renderChildren,
        renderNodeChk_eq st none c depth maxWidth,
        renderChildrenChk_eq st rest depth maxWidth]

theorem renderListKidsChk_eq (st : Styles) (ordered : Bool) (start : Int)
    (cs : List Node) (k : Nat) (depth : Nat) (maxWidth : Int) :
    renderListKidsChk st ordered start cs k depth maxWidth =
      some (renderListKids st ordered start cs k depth maxWidth) := by
  cases cs with
  | nil => simp [renderListKidsChk, renderListKids]
  | cons c rest =>
      simp [renderListKidsChk, renderListKids,
        renderNodeChk_eq st (some (ordered, start, k)) c depth maxWidth,
        renderListKidsChk_eq st ordered start rest (k + 1) depth maxWidth]

theorem itemTextPartChk_eq (st : Styles) (cs : List Node) (depth : Nat)
    (maxWidth : Int) :
    itemTextPartChk st cs depth maxWidth =
      some (itemTextPart st cs depth maxWidth) := by
  cases cs with
  | nil => simp [itemTextPartChk, itemTextPart]
  | cons c rest =>
      cases c with
      | document cs2 =>
          simp [itemTextPartChk, itemTextPart,
            renderNodeChk_eq st none (Node.document cs2) (depth + 1) maxWidth,
            itemTextPartChk_eq st rest depth maxWidth]
      | heading lvl2 inl2 =>
          simp [itemTextPartChk, itemTextPart,
            renderNodeChk_eq st none (Node.heading lvl2 inl2) (depth + 1) maxWidth,
            itemTextPartChk_eq st rest depth maxWidth]
      | paragraph inl2 =>
          simp [itemTextPartChk, itemTextPart,
            renderNodeChk_eq st none (Node.paragraph inl2) (depth + 1) maxWidth,
            itemTextPartChk_eq st rest depth maxWidth]
      | codeBlock raw2 =>
          simp [itemTextPartChk, itemTextPart,
            renderNodeChk_eq st none (Node.codeBlock raw2) (depth + 1) maxWidth,
            itemTextPartChk_eq st rest depth maxWidth]
      | blockquote cs2 =>
          simp [itemTextPartChk, itemTextPart,
            renderNodeChk_eq st none (Node.blockquote cs2) (depth + 1) maxWidth,
            itemTextPartChk_eq st rest depth maxWidth]
      | list ord2 st2 kids2 =>
          simp [itemTextPartChk, itemTextPart,
            itemTextPartChk_eq st rest depth maxWidth]
      | listItem cs2 =>
          simp [itemTextPartChk, itemTextPart,
            renderNodeChk_eq st none (Node.listItem cs2) (depth + 1) maxWidth,
            itemTextPartChk_eq st rest depth maxWidth]
      | table al2 rows2 =>
          simp [itemTextPartChk, itemTextPart,
            renderNodeChk_eq st none (Node.table al2 rows2) (depth + 1) maxWidth,
            itemTextPartChk_eq st rest depth maxWidth]
      | thematicBreak =>
          simp [itemTextPartChk, itemTextPart,
            renderNodeChk_eq st none (Node.thematicBreak) (depth + 1) maxWidth,
            itemTextPartChk_eq st rest depth maxWidth]
      | textBlock inl2 =>
          simp [itemTextPartChk, itemTextPart,
            renderNodeChk_eq st none (Node.textBlock inl2) (depth + 1) maxWidth,
            itemTextPartChk_eq st rest depth maxWidth]
      | unknown cs2 =>
          simp [itemTextPartChk, itemTextPart,
            renderNodeChk_eq st none (Node.unknown cs2) (depth + 1) maxWidth,
            itemTextPartChk_eq st rest depth maxWidth]

theorem itemListPartChk_eq (st : Styles) (cs : List Node) (depth : Nat)
    (maxWidth : Int) :
    itemListPartChk st cs depth maxWidth =
      some (itemListPart st cs depth maxWidth) := by
  cases cs with
  | nil => simp [itemListPartChk, itemListPart]
  | cons c rest =>
      cases c with
      | document cs2 =>
          simp [itemListPartChk, itemListPart,
            itemListPartChk_eq st rest depth maxWidth]
      | heading lvl2 inl2 =>
          simp [itemListPartChk, itemListPart,
            itemListPartChk_eq st rest depth maxWidth]
      | paragraph inl2 =>
          simp [itemListPartChk, itemListPart,
            itemListPartChk_eq st rest depth maxWidth]
      | codeBlock raw2 =>
          simp [itemListPartChk, itemListPart,
            itemListPartChk_eq st rest depth maxWidth]
      | blockquote cs2 =>
          simp [itemListPartChk, itemListPart,
            itemListPartChk_eq st rest depth maxWidth]
      | list ord2 st2 kids2 =>
          simp [itemListPartChk, itemListPart,
            renderNodeChk_eq st none (Node.list ord2 st2 kids2) (depth + 1) maxWidth,
            itemListPartChk_eq st rest depth maxWidth]
      | listItem cs2 =>
          simp [itemListPartChk, itemListPart,
            itemListPartChk_eq st rest depth maxWidth]
      | table al2 rows2 =>
          simp [itemListPartChk, itemListPart,
            itemListPartChk_eq st rest depth maxWidth]
      | thematicBreak =>
          simp [itemListPartChk, itemListPart,
            itemListPartChk_eq st rest depth maxWidth]
      | textBlock inl2 =>
          simp [itemListPartChk, itemListPart,
            itemListPartChk_eq st rest depth maxWidth]
      | unknown cs2 =>
          simp [itemListPartChk, itemListPart,
            itemListPartChk_eq st rest depth maxWidth]

end

end Ink

namespace Ink

/-- `Render` with every partial operation checked: the front-matter
slicings, the table's `colWidths` indexings, and the space/rule
repeat counts. `none` exactly where the Go code would panic. -/
def RenderChk (st : Styles) (parse : Str → Node) (source : Str)
    (maxWidth : Int) : Option Str := do
  let stripped ← stripFrontMatterChk source
  let body ← renderNodeChk st none (parse stripped) 0 maxWidth
  pure (trimRightNewlines body)

end Ink

open Ink

/-- C1: `Render` is total — for every input byte sequence (including
the empty one) and every width (in particular every `maxWidth ≥ 1`),
the fully bounds-checked pipeline returns `some` of the rendered
string: no slice indexing in `stripFrontMatter` or `renderTable` and
no space-repeat count in `alignCell` can fall out of range, so no
execution path panics or signals failure. -/
theorem C1_render_never_fails (st : Styles) (parse : Str → Node)
    (source : Str) (maxWidth : Int) :
    RenderChk st parse source maxWidth =
      some (Render st parse source maxWidth)
    ∧ stripFrontMatterChk source = some (stripFrontMatter source)
    ∧ (∀ aligns rows, renderTableChk st aligns rows maxWidth =
        some (renderTable st aligns rows maxWidth))
    ∧ (∀ s width a, alignCellChk st.vw s width a =
        some (alignCell st.vw s width a)) := by
  refine ⟨?_, stripFrontMatterChk_eq source,
    fun aligns rows => renderTableChk_eq st aligns rows maxWidth,
    fun s width a => alignCellChk_eq st.vw s width a⟩
  unfold RenderChk Render
  rw [stripFrontMatterChk_eq source, option_bind_some]
  rw [renderNodeChk_eq st none (parse (stripFrontMatter source)) 0 maxWidth,
    option_bind_some]
  rfl
